import Mathlib

/-!
Verification development for the TTGraph typed-graph library.

The embedding models `src/tgraph/src/typed_graph.rs` (the `Graph` container
and its commit engine) over a concrete closed node universe whose node-kind
contract functions are translated from the code generated by
`src/tgraph_macros/src/source.rs` (outgoing-edge iteration and single-edge
rewrite) and `src/tgraph_macros/src/bidirectional.rs` (bidirectional-link
declarations).

Handles (`NodeIndex`) are natural numbers; the reserved empty handle is `0`.
`BTreeMap`s are modelled as association lists (first-match lookup,
replace-in-place insert), `BTreeSet`s as duplicate-free lists kept in the
same ascending order the Rust ordering derives.  Functions that can panic in
Rust return `Except String`; each distinct panic site gets its own message.
-/

/-- Rust `NodeIndex(pub usize)`; `NodeIndex::empty()` is `0`. -/
abbrev Handle := Nat

/-- The reserved empty handle (`NodeIndex::empty`). -/
def emptyH : Handle := 0

/-- The graph-wide source enumeration (`SourceEnum`): one variant per
reference-bearing field of each node kind, as generated by `make_enum` in
`source.rs`. The universe has kinds `A {link, data}`, `B {link}`,
`C {links : Set, data}`, `P {partner}`, `Q {partner}` with the declared
bidirectional pair `P.partner <-> Q.partner`. -/
inductive Src where
  | aLink
  | bLink
  | cLinks
  | pPartner
  | qPartner
deriving DecidableEq

/-- The link-mirror enumeration restricted to the mirrored fields of the
universe (the pair `P.partner <-> Q.partner`). -/
inductive LM where
  | pPartner
  | qPartner
deriving DecidableEq

/-- The tagged union of node kinds (`NodeEnum`). `C.links` models
`Set<NodeIndex>` as a duplicate-free ascending list. -/
inductive Node where
  | A (link : Handle) (data : Nat)
  | B (link : Handle)
  | C (links : List Handle) (data : Nat)
  | P (partner : Handle)
  | Q (partner : Handle)
deriving DecidableEq

/-- Rank of a `Src` variant in the derived `Ord` order (declaration order). -/
def srcRank : Src → Nat
  | .aLink => 0
  | .bLink => 1
  | .cLinks => 2
  | .pPartner => 3
  | .qPartner => 4

/-- Rank of an `LM` variant in the derived `Ord` order. -/
def lmRank : LM → Nat
  | .pPartner => 0
  | .qPartner => 1

/-- Strict order on back-link set elements `(NodeIndex, SourceEnum)`
(derived tuple `Ord`: handle first, then source variant). -/
def pairLt (p q : Handle × Src) : Prop :=
  p.1 < q.1 ∨ (p.1 = q.1 ∧ srcRank p.2 < srcRank q.2)

instance (p q : Handle × Src) : Decidable (pairLt p q) := by
  unfold pairLt; infer_instance

/-- Rust `BTreeSet<(NodeIndex, SourceEnum)>::insert` on the ascending-list model. -/
def sinsert : List (Handle × Src) → Handle × Src → List (Handle × Src)
  | [], p => [p]
  | q :: t, p =>
    if p = q then q :: t
    else if pairLt p q then p :: q :: t
    else q :: sinsert t p

/-- Rust `BTreeSet<(NodeIndex, SourceEnum)>::remove`. -/
def sremove : List (Handle × Src) → Handle × Src → List (Handle × Src)
  | [], _ => []
  | q :: t, p => if q = p then t else q :: sremove t p

/-- Rust `BTreeSet<NodeIndex>::insert` (used for set-valued node fields). -/
def hinsert : List Handle → Handle → List Handle
  | [], x => [x]
  | y :: t, x =>
    if x = y then y :: t
    else if x < y then x :: y :: t
    else y :: hinsert t x

/-- Rust `BTreeSet<NodeIndex>::remove`. -/
def hremove : List Handle → Handle → List Handle
  | [], _ => []
  | y :: t, x => if y = x then t else y :: hremove t x

/-- Strict order on bidirectional-delta triples
`(NodeIndex, NodeIndex, LinkMirrorEnum)`. -/
def tripLt (p q : Handle × Handle × LM) : Prop :=
  p.1 < q.1 ∨ (p.1 = q.1 ∧
    (p.2.1 < q.2.1 ∨ (p.2.1 = q.2.1 ∧ lmRank p.2.2 < lmRank q.2.2)))

instance (p q : Handle × Handle × LM) : Decidable (tripLt p q) := by
  unfold tripLt; infer_instance

/-- Rust `BTreeSet` insert for delta triples. -/
def tinsert : List (Handle × Handle × LM) → Handle × Handle × LM →
    List (Handle × Handle × LM)
  | [], p => [p]
  | q :: t, p =>
    if p = q then q :: t
    else if tripLt p q then p :: q :: t
    else q :: tinsert t p

/-- Rust `BTreeSet` remove for delta triples. -/
def tremove : List (Handle × Handle × LM) → Handle × Handle × LM →
    List (Handle × Handle × LM)
  | [], _ => []
  | q :: t, p => if q = p then t else q :: tremove t p

/-- Rust `BTreeMap::get` on the association-list model (first match). -/
def mlook {V : Type} : List (Handle × V) → Handle → Option V
  | [], _ => none
  | p :: t, k => if p.1 = k then some p.2 else mlook t k

/-- Rust `BTreeMap::insert`: replace the value at an existing key in place,
otherwise append the new binding. -/
def minsert {V : Type} : List (Handle × V) → Handle → V → List (Handle × V)
  | [], k, v => [(k, v)]
  | p :: t, k, v => if p.1 = k then (k, v) :: t else p :: minsert t k v

/-- Rust `BTreeMap::remove` (drop the binding of `k`). -/
def mremove {V : Type} : List (Handle × V) → Handle → List (Handle × V)
  | [], _ => []
  | p :: t, k => if p.1 = k then t else p :: mremove t k

/-- Rust `BTreeMap::entry(k).or_insert(v)` / `.or_default()`. -/
def mentry {V : Type} (m : List (Handle × V)) (k : Handle) (v : V) :
    List (Handle × V) :=
  minsert m k ((mlook m k).getD v)

/-- Outgoing-edge enumeration (`iter_sources`), translated from the
iterator generated by `make_iter` in `source.rs`: scalar reference fields
yield one pair unconditionally (including the empty handle), set fields
yield one pair per element. -/
def iterSources : Node → List (Handle × Src)
  | .A l _ => [(l, .aLink)]
  | .B l => [(l, .bLink)]
  | .C ls _ => ls.map (fun h => (h, Src.cLinks))
  | .P pt => [(pt, .pPartner)]
  | .Q pt => [(pt, .qPartner)]

/-- The side-effect descriptor returned by `modify_link`, as consumed by
`Graph::redirect_links` (`side_effect.add`, `side_effect.remove`,
`side_effect.link_mirrors`); `add`/`rem` are single `NodeIndex` values
tested with `is_empty`. -/
structure SideEffect where
  add : Handle
  rem : Handle
  linkMirrors : List LM
deriving DecidableEq

/-- The empty side effect (nothing to report). -/
def noSe : SideEffect := ⟨emptyH, emptyH, []⟩

/-- Single-edge rewrite (`modify_link`), translated from the `modify` arms
generated by `make_iter` in `source.rs`: scalar fields are assigned `new`
unconditionally; set fields remove `old` and then insert `new`
unconditionally (also when `new` is the empty handle).

Modelled from the spec: the side-effect descriptor for the mirrored scalar
fields `P.partner` / `Q.partner` (the `node_enum!` glue that produces it is
not under `src/`): a rewrite `old -> new` of a mirrored field reports `new`
as added and `old` as removed under the partner-side link-mirror tags;
unmirrored fields report nothing. A tag of a different kind leaves the node
unchanged. -/
def modifyLink : Node → Src → Handle → Handle → Node × SideEffect
  | .A _ d, .aLink, _, new => (.A new d, noSe)
  | .B _, .bLink, _, new => (.B new, noSe)
  | .C ls d, .cLinks, old, new => (.C (hinsert (hremove ls old) new) d, noSe)
  | .P _, .pPartner, old, new => (.P new, ⟨new, old, [LM.qPartner]⟩)
  | .Q _, .qPartner, old, new => (.Q new, ⟨new, old, [LM.pPartner]⟩)
  | n, _, _, _ => (n, noSe)

/-- Bidirectional-link declarations (`get_bidiretional_links`), translated
from the match arms generated by `make_bidirectional_link` in
`bidirectional.rs` for the declared pair `P.partner <-> Q.partner`: a `P`
node yields the current contents of its `partner` field paired with the
mirror tags of the partner side, symmetrically for `Q`; every other kind
takes the default arm and yields nothing. -/
def getBidirectionalLinks : Node → List (List Handle × List LM)
  | .P pt => [([pt], [LM.qPartner])]
  | .Q pt => [([pt], [LM.pPartner])]
  | _ => []

/-- Modelled from the spec: `add_link(link_mirror, x)` (§4.5.5, generated
code not under `src/`) — low-level insert of a single back-edge at the
named field, returning whether the field actually changed; for the scalar
mirrored fields this assigns `x` and reports a change iff the field held a
different value. A mirror tag of a different kind changes nothing. -/
def addLink : Node → LM → Handle → Node × Bool
  | .P pt, .pPartner, x => if pt = x then (.P pt, false) else (.P x, true)
  | .Q pt, .qPartner, x => if pt = x then (.Q pt, false) else (.Q x, true)
  | n, _, _ => (n, false)

/-- Modelled from the spec: `remove_link(link_mirror, x)` (§4.5.5) — erase
the back-edge `x` at the named field, returning whether anything changed;
for scalar mirrored fields the field is reset to the empty handle iff it
held `x`. -/
def removeLink : Node → LM → Handle → Node × Bool
  | .P pt, .pPartner, x => if pt = x then (.P emptyH, true) else (.P pt, false)
  | .Q pt, .qPartner, x => if pt = x then (.Q emptyH, true) else (.Q pt, false)
  | n, _, _ => (n, false)

/-- Modelled from the spec: `to_source_enum` (§4.5.7) — the canonical map
from link-mirror tags to source tags of the same field. -/
def toSourceEnum : LM → Src
  | .pPartner => .pPartner
  | .qPartner => .qPartner

/-- The targets a node lists under a given source tag (derived from
`iter_sources`; used to state properties). -/
def linkTargets (n : Node) (s : Src) : List Handle :=
  (iterSources n).filterMap (fun p => if p.2 = s then some p.1 else none)

/-- The graph container (`Graph<NodeT>`): context identity, node arena and
reverse-link index, from `typed_graph.rs`. -/
structure Graph where
  ctxId : Nat
  nodes : List (Handle × Node)
  backLinks : List (Handle × List (Handle × Src))
deriving DecidableEq

/-- The transaction object (fields of `Transaction<NodeT>` as `commit`
consumes them; `transaction.rs` itself is not under `src/`).

Modelled from the spec (§4.3): a transaction owns `ctx_id`, `alloc_nodes`,
`inc_nodes` (an arena of inserted nodes), `dec_nodes`, `mut_nodes`,
`update_nodes`, the two redirection vectors and the one-shot `committed`
flag. -/
structure Transaction where
  ctxId : Nat
  allocNodes : List Handle
  incNodes : List (Handle × Node)
  decNodes : List Handle
  mutNodes : List (Handle × (Node → Node))
  updateNodes : List (Handle × (Node → Node))
  redirectLinksV : List (Handle × Handle)
  redirectAllLinksV : List (Handle × Handle)
  committed : Bool

/-- A transaction with every queue empty. -/
def emptyTxn (ctx : Nat) : Transaction :=
  ⟨ctx, [], [], [], [], [], [], [], false⟩

/-- Modelled from the spec (§4.3, `transaction.rs` not under `src/`):
`giveup()` sets `committed = true` so that commit becomes a no-op. -/
def giveup (t : Transaction) : Transaction := { t with committed := true }

/-- The cancelling delta container (`BidirectionLinkContainer`). -/
structure Bd where
  toAdd : List (Handle × Handle × LM)
  toRemove : List (Handle × Handle × LM)
deriving DecidableEq

/-- Rust `BidirectionLinkContainer::default()`. -/
def emptyBd : Bd := ⟨[], []⟩

/-- Rust `BidirectionLinkContainer::add_one`: per mirror tag, cancel a pending
symmetric removal, otherwise queue an addition. -/
def bdAddOne (bd : Bd) (x y : Handle) : List LM → Bd
  | [] => bd
  | l :: t =>
    let bd' :=
      if (x, y, l) ∈ bd.toRemove then
        { bd with toRemove := tremove bd.toRemove (x, y, l) }
      else
        { bd with toAdd := tinsert bd.toAdd (x, y, l) }
    bdAddOne bd' x y t

/-- Rust `BidirectionLinkContainer::add`. -/
def bdAdd (bd : Bd) (x : Handle) (ys : List Handle) (lms : List LM) : Bd :=
  match ys with
  | [] => bd
  | y :: t => bdAdd (bdAddOne bd x y lms) x t lms

/-- Rust `BidirectionLinkContainer::remove_one`. -/
def bdRemoveOne (bd : Bd) (x y : Handle) : List LM → Bd
  | [] => bd
  | l :: t =>
    let bd' :=
      if (x, y, l) ∈ bd.toAdd then
        { bd with toAdd := tremove bd.toAdd (x, y, l) }
      else
        { bd with toRemove := tinsert bd.toRemove (x, y, l) }
    bdRemoveOne bd' x y t

/-- Rust `BidirectionLinkContainer::remove`. -/
def bdRemove (bd : Bd) (x : Handle) (ys : List Handle) (lms : List LM) : Bd :=
  match ys with
  | [] => bd
  | y :: t => bdRemove (bdRemoveOne bd x y lms) x t lms

/-- Fold `bd.add` over a node's bidirectional declarations
(`Graph::add_bidirectional_link` body, given the declarations). -/
def bdAddDecls (bd : Bd) (x : Handle) :
    List (List Handle × List LM) → Bd
  | [] => bd
  | (ys, lms) :: t => bdAddDecls (bdAdd bd x ys lms) x t

/-- Fold `bd.remove` over a node's bidirectional declarations
(`Graph::remove_bidirectional_link` body). -/
def bdRemoveDecls (bd : Bd) (x : Handle) :
    List (List Handle × List LM) → Bd
  | [] => bd
  | (ys, lms) :: t => bdRemoveDecls (bdRemove bd x ys lms) x t

/-- Panic messages, one per panic site of `typed_graph.rs`. -/
def ctxMsg : String := "The transaction and the graph are from different context!"

/-- Panic message of the `alloc_nodes` assertion in `commit`. -/
def allocMsg : String := "There are unfilled allocated nodes"

/-- Panic message of the cycle assertion in `redirect_links_vec`. -/
def loopMsg : String := "Loop redirection detected!"

/-- Panic message for the `back_links` unwraps. -/
def backMsg : String := "back_links unwrap failed"

/-- Panic message for the `nodes` get / get_mut / remove unwraps. -/
def nodeMsg : String := "nodes unwrap failed"

/-- Panic message for a `fa` lookup of a handle never entered (unreachable
for the vectors `redirect_links_vec` builds `fa` from). -/
def faMsg : String := "fa unwrap failed"

/-- Ran out of fuel while chasing `fa` parents (unreachable: `fa` stays a
forest, so chains are shorter than the number of entries). -/
def fuelMsg : String := "fa chase fuel exhausted"

/-- Rust `Graph::add_back_links` for one node: register the node itself as a
key, then insert `(x, s)` under every target of its outgoing edges —
unconditionally, including the empty handle. -/
def addBackLinksOne (x : Handle) (m : List (Handle × List (Handle × Src))) :
    List (Handle × Src) → List (Handle × List (Handle × Src))
  | [] => m
  | (y, s) :: t =>
    addBackLinksOne x (minsert m y (sinsert ((mlook m y).getD []) (x, s))) t

/-- Rust `add_back_links(x, n)` (keys the node, then its targets). -/
def addBackLinks (m : List (Handle × List (Handle × Src))) (x : Handle)
    (n : Node) : List (Handle × List (Handle × Src)) :=
  addBackLinksOne x (mentry m x []) (iterSources n)

/-- First loop of `Graph::merge_nodes`: add back links of every incoming
node. -/
def addBackLinksAll (m : List (Handle × List (Handle × Src))) :
    List (Handle × Node) → List (Handle × List (Handle × Src))
  | [] => m
  | (x, n) :: t => addBackLinksAll (addBackLinks m x n) t

/-- Second loop of `Graph::merge_nodes`: queue the bidirectional
declarations of every incoming node. -/
def bdDeclsAll (bd : Bd) : List (Handle × Node) → Bd
  | [] => bd
  | (x, n) :: t => bdDeclsAll (bdAddDecls bd x (getBidirectionalLinks n)) t

/-- Rust `Arena::merge` (arena code not under `src/`). Modelled from the spec
(§4.1): a straight union — handle sets from one distributor are disjoint. -/
def mergeMaps (m : List (Handle × Node)) : List (Handle × Node) →
    List (Handle × Node)
  | [] => m
  | (x, n) :: t => mergeMaps (minsert m x n) t

/-- Rust `Graph::merge_nodes`: back links, then bidirectional declarations, then
the arena union. -/
def mergeNodes (g : Graph) (inc : List (Handle × Node)) (bd : Bd) :
    Graph × Bd :=
  ({ g with
      nodes := mergeMaps g.nodes inc
      backLinks := addBackLinksAll g.backLinks inc },
    bdDeclsAll bd inc)

/-- The strip loops of `modify_node` / `update_node` / `remove_back_links`:
for every outgoing `(y, s)` of node `x`, `back_links.get_mut(&y).unwrap()`
and remove `(x, s)`. -/
def stripSources (x : Handle) (m : List (Handle × List (Handle × Src))) :
    List (Handle × Src) → Except String (List (Handle × List (Handle × Src)))
  | [] => .ok m
  | (y, s) :: t =>
    match mlook m y with
    | none => .error backMsg
    | some l => stripSources x (minsert m y (sremove l (x, s))) t

/-- The re-register loops of `modify_node` / `update_node`: for every
outgoing `(y, s)` of node `x`, `back_links.get_mut(&y).unwrap()` and insert
`(x, s)`. -/
def addSources (x : Handle) (m : List (Handle × List (Handle × Src))) :
    List (Handle × Src) → Except String (List (Handle × List (Handle × Src)))
  | [] => .ok m
  | (y, s) :: t =>
    match mlook m y with
    | none => .error backMsg
    | some l => addSources x (minsert m y (sinsert l (x, s))) t

/-- Rust `Graph::modify_node`: strip declarations and back links, apply the
closure in place, re-register declarations and back links. -/
def modifyNode (g : Graph) (x : Handle) (f : Node → Node) (bd : Bd) :
    Except String (Graph × Bd) :=
  match mlook g.nodes x with
  | none => .error nodeMsg
  | some n =>
    let bd1 := bdRemoveDecls bd x (getBidirectionalLinks n)
    match stripSources x g.backLinks (iterSources n) with
    | .error e => .error e
    | .ok back1 =>
      let n' := f n
      let bd2 := bdAddDecls bd1 x (getBidirectionalLinks n')
      match addSources x back1 (iterSources n') with
      | .error e => .error e
      | .ok back2 =>
        .ok ({ g with nodes := minsert g.nodes x n', backLinks := back2 }, bd2)

/-- Rust `Graph::update_node`: same strip / re-register pattern around
`Arena::update_with` (take by value, apply, store), which coincides with
the in-place application. -/
def updateNode (g : Graph) (x : Handle) (f : Node → Node) (bd : Bd) :
    Except String (Graph × Bd) :=
  modifyNode g x f bd

/-- The inbound-zeroing loop of `Graph::remove_node`: for every `(y, s)` in
`back_links[x]`, `nodes.get_mut(y).unwrap().modify_link(s, x, empty)`
(the side-effect descriptor is discarded, as in the source). -/
def zeroInbound (x : Handle) (m : List (Handle × Node)) :
    List (Handle × Src) → Except String (List (Handle × Node))
  | [] => .ok m
  | (y, s) :: t =>
    match mlook m y with
    | none => .error nodeMsg
    | some n => zeroInbound x (minsert m y (modifyLink n s x emptyH).1) t

/-- Rust `Graph::remove_node`: strip bidirectional declarations, remove the node
from the arena, strip its outgoing back links, take `back_links[x]` and
zero every inbound edge. -/
def removeNode (g : Graph) (x : Handle) (bd : Bd) :
    Except String (Graph × Bd) :=
  match mlook g.nodes x with
  | none => .error nodeMsg
  | some n =>
    let bd1 := bdRemoveDecls bd x (getBidirectionalLinks n)
    let nodes1 := mremove g.nodes x
    match stripSources x g.backLinks (iterSources n) with
    | .error e => .error e
    | .ok back1 =>
      match mlook back1 x with
      | none => .error backMsg
      | some inb =>
        match zeroInbound x nodes1 inb with
        | .error e => .error e
        | .ok nodes2 =>
          .ok ({ g with nodes := nodes2, backLinks := mremove back1 x }, bd1)

/-- The per-inbound-edge body of `Graph::redirect_links`: move `(y, s)`
into `back_links[new]`, rewrite the edge on node `y`, and fold any
non-empty side effects into the delta. -/
def redirectLinksGo (old new : Handle)
    (back : List (Handle × List (Handle × Src))) (ns : List (Handle × Node))
    (bd : Bd) : List (Handle × Src) →
    Except String (List (Handle × List (Handle × Src)) ×
      List (Handle × Node) × Bd)
  | [] => .ok (back, ns, bd)
  | (y, s) :: t =>
    let back1 := minsert back new (sinsert ((mlook back new).getD []) (y, s))
    match mlook ns y with
    | none => .error nodeMsg
    | some n =>
      let (n', se) := modifyLink n s old new
      let ns1 := minsert ns y n'
      let bd1 := if se.add ≠ emptyH then bdAddOne bd y se.add se.linkMirrors else bd
      let bd2 := if se.rem ≠ emptyH then bdRemoveOne bd1 y se.rem se.linkMirrors
        else bd1
      redirectLinksGo old new back1 ns1 bd2 t

/-- Rust `Graph::redirect_links`: take `back_links[old]` (unwrap — panics when
`old` is not a key), re-insert an empty set for `old`, default-insert a set
for `new`, then process every moved inbound edge. -/
def redirectLinks (g : Graph) (old new : Handle) (bd : Bd) :
    Except String (Graph × Bd) :=
  match mlook g.backLinks old with
  | none => .error backMsg
  | some oldLink =>
    let back0 := minsert g.backLinks old []
    let back1 := mentry back0 new []
    match redirectLinksGo old new back1 g.nodes bd oldLink with
    | .error e => .error e
    | .ok (back2, ns2, bd2) =>
      .ok ({ g with nodes := ns2, backLinks := back2 }, bd2)

/-- The parent chase `while fa[&x] != x { x = fa[&x] }`, fuelled. -/
def chase (fa : List (Handle × Handle)) : Nat → Handle → Except String Handle
  | 0, _ => .error fuelMsg
  | fuel + 1, x =>
    match mlook fa x with
    | none => .error faMsg
    | some p => if p = x then .ok x else chase fa fuel p

/-- The path-compression loop `while fa[&x] != y { z = fa[&x];
fa[&x] = y; x = z }`, fuelled. -/
def compress (y : Handle) : Nat → List (Handle × Handle) → Handle →
    Except String (List (Handle × Handle))
  | 0, _, _ => .error fuelMsg
  | fuel + 1, fa, x =>
    match mlook fa x with
    | none => .error faMsg
    | some z => if z = y then .ok fa else compress y fuel (minsert fa x y) z

/-- First loop of `redirect_links_vec`: enter every mentioned handle into
`fa` as its own parent. -/
def buildFa (reps : List (Handle × Handle)) : List (Handle × Handle) :=
  reps.foldl (fun fa p => mentry (mentry fa p.1 p.1) p.2 p.2) []

/-- Second loop of `redirect_links_vec`: for each `(old, new)` chase the
representative of `new`; hitting `old` is the fatal cycle; otherwise point
`old` at the representative. -/
def collapseFa (fuel : Nat) (fa : List (Handle × Handle)) :
    List (Handle × Handle) → Except String (List (Handle × Handle))
  | [] => .ok fa
  | p :: t =>
    match chase fa fuel p.2 with
    | .error e => .error e
    | .ok x =>
      if x = p.1 then .error loopMsg
      else collapseFa fuel (minsert fa p.1 x) t

/-- Third loop of `redirect_links_vec`: chase the representative again,
redirect, then compress the chased path. -/
def applyReps (fuel : Nat) (fa : List (Handle × Handle)) (g : Graph)
    (bd : Bd) : List (Handle × Handle) → Except String (Graph × Bd)
  | [] => .ok (g, bd)
  | p :: t =>
    match chase fa fuel p.2 with
    | .error e => .error e
    | .ok r =>
      match redirectLinks g p.1 r bd with
      | .error e => .error e
      | .ok (g1, bd1) =>
        match compress r fuel fa p.2 with
        | .error e => .error e
        | .ok fa1 => applyReps fuel fa1 g1 bd1 t

/-- Rust `Graph::redirect_links_vec`: union-find collapse of the redirection
pairs, then apply each redirection to the collapsed representative. -/
def redirectLinksVec (g : Graph) (reps : List (Handle × Handle)) (bd : Bd) :
    Except String (Graph × Bd) :=
  let fuel := 2 * reps.length + 1
  match collapseFa fuel (buildFa reps) reps with
  | .error e => .error e
  | .ok fa => applyReps fuel fa g bd reps

/-- The `to_remove` loop of `Graph::apply_bidirectional_links`: with both
endpoints live, `remove_link` on the target node and, if it changed, drop
the corresponding back-link entry (unwrap on `back_links[x]`). -/
def applyBdRemove (ns : List (Handle × Node))
    (bs : List (Handle × List (Handle × Src))) :
    List (Handle × Handle × LM) →
    Except String (List (Handle × Node) × List (Handle × List (Handle × Src)))
  | [] => .ok (ns, bs)
  | (x, y, l) :: t =>
    if (mlook ns x).isSome then
      match mlook ns y with
      | none => applyBdRemove ns bs t
      | some ny =>
        let (ny', changed) := removeLink ny l x
        if changed then
          match mlook bs x with
          | none => .error backMsg
          | some lset =>
            applyBdRemove (minsert ns y ny')
              (minsert bs x (sremove lset (y, toSourceEnum l))) t
        else applyBdRemove ns bs t
    else applyBdRemove ns bs t

/-- The `to_add` loop of `Graph::apply_bidirectional_links`: with both
endpoints live, `add_link` on the target node and, if it changed, insert
the corresponding back-link entry (`entry(..).or_default()`). -/
def applyBdAdd (ns : List (Handle × Node))
    (bs : List (Handle × List (Handle × Src))) :
    List (Handle × Handle × LM) →
    List (Handle × Node) × List (Handle × List (Handle × Src))
  | [] => (ns, bs)
  | (x, y, l) :: t =>
    if (mlook ns x).isSome then
      match mlook ns y with
      | none => applyBdAdd ns bs t
      | some ny =>
        let (ny', changed) := addLink ny l x
        if changed then
          applyBdAdd (minsert ns y ny')
            (minsert bs x (sinsert ((mlook bs x).getD []) (y, toSourceEnum l))) t
        else applyBdAdd ns bs t
    else applyBdAdd ns bs t

/-- Rust `Graph::apply_bidirectional_links`: removals, then additions. -/
def applyBidirectionalLinks (g : Graph) (bd : Bd) : Except String Graph :=
  match applyBdRemove g.nodes g.backLinks bd.toRemove with
  | .error e => .error e
  | .ok (ns1, bs1) =>
    let (ns2, bs2) := applyBdAdd ns1 bs1 bd.toAdd
    .ok { g with nodes := ns2, backLinks := bs2 }

/-- The mutation loop of `commit` (`for (i, f) in t.mut_nodes`). -/
def foldMut (g : Graph) (bd : Bd) :
    List (Handle × (Node → Node)) → Except String (Graph × Bd)
  | [] => .ok (g, bd)
  | p :: t =>
    match modifyNode g p.1 p.2 bd with
    | .error e => .error e
    | .ok (g1, bd1) => foldMut g1 bd1 t

/-- The update loop of `commit` (`for (i, f) in t.update_nodes`). -/
def foldUpdate (g : Graph) (bd : Bd) :
    List (Handle × (Node → Node)) → Except String (Graph × Bd)
  | [] => .ok (g, bd)
  | p :: t =>
    match updateNode g p.1 p.2 bd with
    | .error e => .error e
    | .ok (g1, bd1) => foldUpdate g1 bd1 t

/-- The removal loop of `commit` (`for n in &t.dec_nodes`). -/
def foldRemove (g : Graph) (bd : Bd) :
    List Handle → Except String (Graph × Bd)
  | [] => .ok (g, bd)
  | x :: t =>
    match removeNode g x bd with
    | .error e => .error e
    | .ok (g1, bd1) => foldRemove g1 bd1 t

/-- Rust `Graph::commit`, translated statement by statement: the two
assertions, then early redirections, merge of inserted nodes, in-place
mutations, functional updates, late redirections, removals, and finally
the bidirectional delta. (The source contains no check of `t.committed`.) -/
def commit (g : Graph) (t : Transaction) : Except String Graph :=
  if t.ctxId = g.ctxId then
    if t.allocNodes = [] then
      match redirectLinksVec g t.redirectLinksV emptyBd with
      | .error e => .error e
      | .ok (g1, bd1) =>
        let (g2, bd2) := mergeNodes g1 t.incNodes bd1
        match foldMut g2 bd2 t.mutNodes with
        | .error e => .error e
        | .ok (g3, bd3) =>
          match foldUpdate g3 bd3 t.updateNodes with
          | .error e => .error e
          | .ok (g4, bd4) =>
            match redirectLinksVec g4 t.redirectAllLinksV bd4 with
            | .error e => .error e
            | .ok (g5, bd5) =>
              match foldRemove g5 bd5 t.decNodes with
              | .error e => .error e
              | .ok (g6, bd6) => applyBidirectionalLinks g6 bd6
    else .error allocMsg
  else .error ctxMsg

/-- Decidable equality of `Except` results (commit outcomes). -/
instance {e a : Type} [DecidableEq e] [DecidableEq a] :
    DecidableEq (Except e a) := fun x y =>
  match x, y with
  | .ok u, .ok v =>
    if h : u = v then isTrue (h ▸ rfl) else isFalse (fun hc => h (Except.ok.inj hc))
  | .error u, .error v =>
    if h : u = v then isTrue (h ▸ rfl) else isFalse (fun hc => h (Except.error.inj hc))
  | .ok _, .error _ => isFalse (fun hc => Except.noConfusion hc)
  | .error _, .ok _ => isFalse (fun hc => Except.noConfusion hc)

/-- Predicate `P` holds of the value inside the option (and the option is `some`). -/
def optionHolds {α : Type} (P : α → Prop) : Option α → Prop
  | none => False
  | some a => P a

instance {α : Type} (P : α → Prop) [DecidablePred P] :
    (o : Option α) → Decidable (optionHolds P o)
  | none => isFalse (fun h => h)
  | some a => if h : P a then isTrue h else isFalse h

/-- Set-valued fields of a node are duplicate-free (every `BTreeSet` is). -/
def nodeOk : Node → Prop
  | .C ls _ => ls.Nodup
  | _ => True

instance : (n : Node) → Decidable (nodeOk n)
  | .A _ _ => isTrue trivial
  | .B _ => isTrue trivial
  | .C ls _ => inferInstanceAs (Decidable ls.Nodup)
  | .P _ => isTrue trivial
  | .Q _ => isTrue trivial

/-- Well-formedness of a graph state, as `commit` maintains it: map keys
are unique, the empty handle holds no node, every target of a live node's
outgoing edge is a `back_links` key, every live node is a `back_links`
key, and every back-link entry `(x, s)` under key `y` names a live node
`x` that lists `y` under `s` (spec I1–I3, with keys also present for
referenced targets). -/
def Wf (g : Graph) : Prop :=
  (g.nodes.map Prod.fst).Nodup ∧
  (g.backLinks.map Prod.fst).Nodup ∧
  mlook g.nodes emptyH = none ∧
  (∀ p ∈ g.nodes, nodeOk p.2 ∧
    ∀ q ∈ iterSources p.2, (mlook g.backLinks q.1).isSome = true) ∧
  (∀ p ∈ g.nodes, (mlook g.backLinks p.1).isSome = true) ∧
  (∀ p ∈ g.backLinks, p.2.Nodup ∧
    ∀ q ∈ p.2, optionHolds (fun n => p.1 ∈ linkTargets n q.2)
      (mlook g.nodes q.1))

instance (g : Graph) : Decidable (Wf g) := by
  unfold Wf; infer_instance

/-- The back-link set of `h` (empty when `h` is not a key). -/
def blset (g : Graph) (h : Handle) : List (Handle × Src) :=
  (mlook g.backLinks h).getD []

/-- A transaction that only removes `h`. -/
def removeTxn (ctx : Nat) (h : Handle) : Transaction :=
  { emptyTxn ctx with decNodes := [h] }

/-- Decidable check of invariant I4 for the declared pair
`P.partner <-> Q.partner`: a live `P` node listing a live `Q` node must be
listed back, and symmetrically (vacuous when the endpoint is empty or of
another kind). -/
def nodePairOkB (ns : List (Handle × Node)) (x : Handle) : Node → Bool
  | .P y =>
    if y = emptyH then true
    else
      match mlook ns y with
      | some (.Q z) => decide (z = x)
      | _ => true
  | .Q y =>
    if y = emptyH then true
    else
      match mlook ns y with
      | some (.P z) => decide (z = x)
      | _ => true
  | _ => true

/-- I4 over the whole graph. -/
def mirrorPairOkB (g : Graph) : Bool :=
  g.nodes.all fun p => nodePairOkB g.nodes p.1 p.2

/-- Claim C1: the spec says commit of a given-up transaction (with
`committed = true`) returns silently leaving the graph unchanged; the
`commit` in the source never consults `t.committed`, so a given-up
transaction that inserts a node still inserts it: committing it to the
empty graph yields a one-node graph. -/
theorem commit_after_giveup_changes_graph :
    (giveup { emptyTxn 0 with incNodes := [(1, Node.A emptyH 5)] }).committed
        = true ∧
    commit ⟨0, [], []⟩ (giveup { emptyTxn 0 with
        incNodes := [(1, Node.A emptyH 5)] }) =
      .ok ⟨0, [(1, Node.A emptyH 5)], [(1, []), (emptyH, [(1, Src.aLink)])]⟩ := by
  exact ⟨rfl, by decide⟩

/-- Claim C2, counterexample: committing a single node whose scalar
reference field is empty makes the empty handle a `back_links` key
(`add_back_links` registers every source target unconditionally), so the
key set of `back_links` is strictly larger than the set of node handles. -/
theorem backlinks_empty_key_cx :
    optionHolds (fun g' => (mlook g'.backLinks emptyH).isSome = true ∧
        mlook g'.nodes emptyH = none)
      (commit ⟨0, [], []⟩ { emptyTxn 0 with
          incNodes := [(1, Node.A emptyH 5)] }).toOption := by
  decide

/-- Claim C4, counterexample: the generated set-field rewrite removes
`old` and then inserts `new` unconditionally, so `modify_link` with
`new == empty` leaves the empty handle inside the set; committing the
removal of a node referenced from a set-valued field produces a set
containing the empty handle. -/
theorem set_modify_inserts_empty_cx :
    (modifyLink (Node.C [2] 5) Src.cLinks 2 emptyH).1 = Node.C [emptyH] 5 ∧
    optionHolds (fun g1 =>
        optionHolds (fun g2 => mlook g2.nodes 1 = some (Node.C [emptyH] 5))
          (commit g1 (removeTxn 0 2)).toOption)
      (commit ⟨0, [], []⟩ { emptyTxn 0 with
          incNodes := [(1, Node.C [2] 5), (2, Node.B emptyH)] }).toOption := by
  decide

/-- Claim C6, counterexample: the bidirectional invariant I4 does not hold
after every commit. Start from the I4-satisfying graph with `1 : P 3`,
`2 : P empty`, `3 : Q 1`; a commit that mutates node 2's mirrored field to
point at 3 makes `add_link` overwrite `3.partner` from 1 to 2, leaving the
live `P` node 1 listing the live `Q` node 3 while node 3 no longer lists
node 1. -/
theorem mirror_invariant_violated_cx :
    optionHolds (fun g1 =>
      mirrorPairOkB g1 = true ∧
      optionHolds (fun g2 => mirrorPairOkB g2 = false ∧
          mlook g2.nodes 1 = some (Node.P 3) ∧
          mlook g2.nodes 3 = some (Node.Q 2))
        (commit g1 { emptyTxn 0 with
            mutNodes := [(2, fun _ => Node.P 3)] }).toOption)
      (commit ⟨0, [], []⟩ { emptyTxn 0 with
          incNodes := [(1, Node.P 3), (2, Node.P emptyH),
            (3, Node.Q 1)] }).toOption := by
  decide

/-- Claim C6, amended: the concrete scenario of the claim holds — inserting
`p = 1` and `q = 2` with only `p.partner = q` yields `q.partner == p` after
commit, and a later commit mutating `p.partner` to empty yields
`q.partner == empty`. -/
theorem bidirectional_scenario_s5 :
    optionHolds (fun g1 =>
      mlook g1.nodes 2 = some (Node.Q 1) ∧ mlook g1.nodes 1 = some (Node.P 2) ∧
      optionHolds (fun g2 => mlook g2.nodes 2 = some (Node.Q emptyH) ∧
          mlook g2.nodes 1 = some (Node.P emptyH))
        (commit g1 { emptyTxn 0 with
            mutNodes := [(1, fun _ => Node.P emptyH)] }).toOption)
      (commit ⟨0, [], []⟩ { emptyTxn 0 with
          incNodes := [(1, Node.P 2), (2, Node.Q emptyH)] }).toOption := by
  decide

theorem mlook_minsert_self {V : Type} (m : List (Handle × V)) (k : Handle)
    (v : V) : mlook (minsert m k v) k = some v := by
  induction m with
  | nil => simp [minsert, mlook]
  | cons p t ih =>
    by_cases h : p.1 = k
    · simp [minsert, h, mlook]
    · simp [minsert, h, mlook, ih]

theorem mlook_minsert_ne {V : Type} (m : List (Handle × V)) {k k' : Handle}
    (v : V) (h : k' ≠ k) : mlook (minsert m k v) k' = mlook m k' := by
  induction m with
  | nil => simp [minsert, mlook, Ne.symm h]
  | cons p t ih =>
    by_cases hp : p.1 = k
    · subst hp
      simp [minsert, mlook, Ne.symm h]
    · simp [minsert, hp, mlook, ih]

theorem minsert_keys_of_mem {V : Type} (m : List (Handle × V)) (k : Handle)
    (v : V) (h : (mlook m k).isSome = true) :
    (minsert m k v).map Prod.fst = m.map Prod.fst := by
  induction m with
  | nil => simp [mlook] at h
  | cons p t ih =>
    by_cases hp : p.1 = k
    · simp [minsert, hp]
    · have h' : (mlook t k).isSome = true := by simpa [mlook, hp] using h
      simp [minsert, hp, ih h']

theorem mlook_eq_none {V : Type} (m : List (Handle × V)) (k : Handle)
    (h : k ∉ m.map Prod.fst) : mlook m k = none := by
  induction m with
  | nil => rfl
  | cons p t ih =>
    have h1 : k ≠ p.1 := fun hc => h (by simp [hc])
    have h2 : k ∉ t.map Prod.fst := fun hc => h (by simp [hc])
    simp [mlook, Ne.symm h1, ih h2]

theorem mlook_mremove_ne {V : Type} (m : List (Handle × V)) {k k' : Handle}
    (h : k' ≠ k) : mlook (mremove m k) k' = mlook m k' := by
  induction m with
  | nil => simp [mremove]
  | cons p t ih =>
    by_cases hp : p.1 = k
    · simp [mremove, hp, mlook, Ne.symm h, ih]
    · simp [mremove, hp, mlook, ih]

theorem mlook_mremove_self {V : Type} (m : List (Handle × V)) (k : Handle)
    (hnd : (m.map Prod.fst).Nodup) : mlook (mremove m k) k = none := by
  induction m with
  | nil => rfl
  | cons p t ih =>
    rw [List.map_cons] at hnd
    rcases List.nodup_cons.mp hnd with ⟨hn1, hn2⟩
    by_cases hp : p.1 = k
    · subst hp
      simp only [mremove, if_pos rfl]
      exact mlook_eq_none t p.1 hn1
    · simp [mremove, hp, mlook, ih hn2]

theorem mlook_isSome_iff {V : Type} (m : List (Handle × V)) (k : Handle) :
    (mlook m k).isSome = true ↔ k ∈ m.map Prod.fst := by
  induction m with
  | nil => simp [mlook]
  | cons p t ih =>
    by_cases hp : p.1 = k
    · simp [mlook, hp]
    · simp [mlook, hp, ih, Ne.symm hp]

theorem sremove_sublist (l : List (Handle × Src)) (p : Handle × Src) :
    (sremove l p).Sublist l := by
  induction l with
  | nil => simp [sremove]
  | cons q t ih =>
    by_cases h : q = p
    · rw [sremove, if_pos h]
      exact List.sublist_cons_self _ _
    · rw [sremove, if_neg h]
      exact ih.cons₂ q

theorem mem_sremove_of_ne {l : List (Handle × Src)} {p q : Handle × Src}
    (hm : q ∈ l) (hne : q ≠ p) : q ∈ sremove l p := by
  induction l with
  | nil => simp at hm
  | cons r t ih =>
    by_cases h : r = p
    · subst h
      rcases List.mem_cons.mp hm with h1 | h2
      · exact absurd h1 hne
      · simpa [sremove] using h2
    · rcases List.mem_cons.mp hm with h1 | h2
      · subst h1
        simp [sremove, h]
      · simp only [sremove, if_neg h]
        exact List.mem_cons_of_mem _ (ih h2)

theorem not_mem_sremove_self {l : List (Handle × Src)} (hnd : l.Nodup)
    (p : Handle × Src) : p ∉ sremove l p := by
  induction l with
  | nil => simp [sremove]
  | cons r t ih =>
    by_cases h : r = p
    · subst h
      simpa [sremove] using (List.nodup_cons.mp hnd).1
    · intro hc
      simp only [sremove, if_neg h] at hc
      rcases List.mem_cons.mp hc with h1 | h2
      · exact h h1.symm
      · exact ih (List.nodup_cons.mp hnd).2 h2

theorem mem_sinsert {l : List (Handle × Src)} {p q : Handle × Src} :
    q ∈ sinsert l p ↔ q = p ∨ q ∈ l := by
  induction l with
  | nil => simp [sinsert]
  | cons r t ih =>
    by_cases h : p = r
    · subst h
      have hs : sinsert (p :: t) p = p :: t := by simp [sinsert]
      rw [hs]
      simp only [List.mem_cons]
      tauto
    · by_cases h2 : pairLt p r
      · simp only [sinsert]
        rw [if_neg h, if_pos h2]
        simp only [List.mem_cons]
      · simp only [sinsert]
        rw [if_neg h, if_neg h2]
        simp only [List.mem_cons, ih]
        tauto

theorem mem_hinsert {l : List Handle} {x y : Handle} :
    y ∈ hinsert l x ↔ y = x ∨ y ∈ l := by
  induction l with
  | nil => simp [hinsert]
  | cons r t ih =>
    by_cases h : x = r
    · subst h
      have hs : hinsert (x :: t) x = x :: t := by simp [hinsert]
      rw [hs]
      simp only [List.mem_cons]
      tauto
    · by_cases h2 : x < r
      · simp only [hinsert]
        rw [if_neg h, if_pos h2]
        simp only [List.mem_cons]
      · simp only [hinsert]
        rw [if_neg h, if_neg h2]
        simp only [List.mem_cons, ih]
        tauto

theorem not_mem_hremove_self {l : List Handle} (hnd : l.Nodup) (x : Handle) :
    x ∉ hremove l x := by
  induction l with
  | nil => simp [hremove]
  | cons r t ih =>
    by_cases h : r = x
    · subst h
      simpa [hremove] using (List.nodup_cons.mp hnd).1
    · intro hc
      simp only [hremove, if_neg h] at hc
      rcases List.mem_cons.mp hc with h1 | h2
      · exact h h1.symm
      · exact ih (List.nodup_cons.mp hnd).2 h2

/-- Claim C3, counterexample: committing the single redirection `(1, 1)`
against the empty graph does not complete normally — the transitive
collapse hits its cycle assertion (`x != old` fails for `x = old = 1`) and
panics with the loop message instead of leaving the graph unchanged. -/
theorem self_redirect_panics_cx :
    commit ⟨0, [], []⟩ { emptyTxn 0 with redirectLinksV := [(1, 1)] } =
      .error loopMsg := by
  decide

/-- Claim C3, amended: for every graph and handle `a`, committing a
transaction whose redirect vector is the single pair `(a, a)` panics with
the loop-detection message (a self-redirection is treated as a cycle by
the collapse assertion), for any transaction that passes the context and
allocation assertions. -/
theorem self_redirect_loop_error (g : Graph) (a : Handle) (t : Transaction)
    (hctx : t.ctxId = g.ctxId) (halloc : t.allocNodes = [])
    (hred : t.redirectLinksV = [(a, a)]) :
    commit g t = .error loopMsg := by
  unfold commit
  rw [if_pos hctx, if_pos halloc, hred]
  simp [redirectLinksVec, buildFa, collapseFa, chase, mentry, mlook, minsert]

/-- Witness for `self_redirect_loop_error` at `a = 1` on the empty graph. -/
theorem self_redirect_loop_error_witness :
    commit ⟨0, [], []⟩ { emptyTxn 0 with redirectLinksV := [(1, 1)] } =
      .error loopMsg :=
  self_redirect_loop_error ⟨0, [], []⟩ 1
    { emptyTxn 0 with redirectLinksV := [(1, 1)] } rfl rfl rfl

/-- Claim C8: a redirect vector forming the two-cycle `(a, b), (b, a)` on
distinct handles makes `commit` panic with the loop-detection message
during the transitive collapse, before any redirection of the cycle is
applied to the graph (the error is raised by the collapse loop, which
precedes every `redirect_links` call). -/
theorem redirect_cycle_error (g : Graph) (a b : Handle) (t : Transaction)
    (hab : a ≠ b) (hctx : t.ctxId = g.ctxId) (halloc : t.allocNodes = [])
    (hred : t.redirectLinksV = [(a, b), (b, a)]) :
    commit g t = .error loopMsg := by
  unfold commit
  rw [if_pos hctx, if_pos halloc, hred]
  simp [redirectLinksVec, buildFa, collapseFa, chase, mentry, mlook, minsert,
    hab, Ne.symm hab]

/-- Witness for `redirect_cycle_error` at `a = 1`, `b = 2` on the empty
graph. -/
theorem redirect_cycle_error_witness :
    commit ⟨0, [], []⟩ { emptyTxn 0 with redirectLinksV := [(1, 2), (2, 1)] } =
      .error loopMsg :=
  redirect_cycle_error ⟨0, [], []⟩ 1 2
    { emptyTxn 0 with redirectLinksV := [(1, 2), (2, 1)] } (by decide) rfl rfl rfl

/-- Claim C10: committing a transaction whose redirect vector holds a pair
`(old, new)` where `old` is not a key of `back_links` panics:
`redirect_links` unwraps `back_links.remove(&old)` (and in the degenerate
case `old = new` the collapse loop assertion fires first); the redirection
is never treated as a no-op. -/
theorem redirect_missing_key_error (g : Graph) (o n : Handle)
    (t : Transaction) (hctx : t.ctxId = g.ctxId) (halloc : t.allocNodes = [])
    (hred : t.redirectLinksV = [(o, n)])
    (hmiss : mlook g.backLinks o = none) :
    ∃ e, commit g t = .error e := by
  unfold commit
  rw [if_pos hctx, if_pos halloc, hred]
  by_cases h : o = n
  · subst h
    exact ⟨loopMsg, by
      simp [redirectLinksVec, buildFa, collapseFa, chase, mentry, mlook, minsert]⟩
  · exact ⟨backMsg, by
      simp [redirectLinksVec, buildFa, collapseFa, chase, mentry, mlook,
        minsert, applyReps, compress, redirectLinks, h, Ne.symm h, hmiss]⟩

/-- Witness for `redirect_missing_key_error`: redirecting `(5, 6)` on the
empty graph (no `back_links` key `5`) errors. -/
theorem redirect_missing_key_error_witness :
    ∃ e, commit ⟨0, [], []⟩ { emptyTxn 0 with redirectLinksV := [(5, 6)] } =
      .error e :=
  redirect_missing_key_error ⟨0, [], []⟩ 5 6
    { emptyTxn 0 with redirectLinksV := [(5, 6)] } rfl rfl rfl rfl

/-- The two redirect vectors `[(a, b), (b, c)]` and `[(a, c), (b, c)]`
collapse to the same sequence of `redirect_links` calls (`a` to `c`, then
`b` to `c`), hence produce identical results on any graph and delta. -/
theorem redirectLinksVec_pair_chain (g : Graph) (bd : Bd) {a b c : Handle}
    (hab : a ≠ b) (hac : a ≠ c) (hbc : b ≠ c) :
    redirectLinksVec g [(a, b), (b, c)] bd =
      redirectLinksVec g [(a, c), (b, c)] bd := by
  simp [redirectLinksVec, buildFa, collapseFa, chase, mentry, mlook, minsert,
    applyReps, compress, hab, hac, hbc, Ne.symm hab, Ne.symm hac, Ne.symm hbc]

/-- Claim C7: for distinct handles `a`, `b`, `c`, committing a transaction
whose redirect vector is `[(a, b), (b, c)]` produces the same final result
(graph or panic) as committing the same transaction with redirect vector
`[(a, c), (b, c)]`: the transitive collapse resolves both to redirecting
`a` to `c` and then `b` to `c`. -/
theorem redirect_composition (g : Graph) (t : Transaction) (a b c : Handle)
    (hab : a ≠ b) (hac : a ≠ c) (hbc : b ≠ c) :
    commit g { t with redirectLinksV := [(a, b), (b, c)] } =
      commit g { t with redirectLinksV := [(a, c), (b, c)] } := by
  unfold commit
  dsimp only
  rw [redirectLinksVec_pair_chain g emptyBd hab hac hbc]

/-- Witness for `redirect_composition` at `a = 1`, `b = 2`, `c = 3` on a
three-node graph where both commits succeed. -/
theorem redirect_composition_witness :
    commit ⟨0, [(1, Node.B 0), (2, Node.B 1), (3, Node.B 2)],
        [(1, [(2, Src.bLink)]), (2, [(3, Src.bLink)]), (3, []),
          (0, [(1, Src.bLink)])]⟩
      { emptyTxn 0 with redirectLinksV := [(1, 2), (2, 3)] } =
    commit ⟨0, [(1, Node.B 0), (2, Node.B 1), (3, Node.B 2)],
        [(1, [(2, Src.bLink)]), (2, [(3, Src.bLink)]), (3, []),
          (0, [(1, Src.bLink)])]⟩
      { emptyTxn 0 with redirectLinksV := [(1, 3), (2, 3)] } :=
  redirect_composition _ (emptyTxn 0) 1 2 3 (by decide) (by decide) (by decide)

/-- Claim C2, amended: committing a single node `A {link := l}` under
handle `hnd` into the empty graph yields `back_links` whose key set is
`{hnd, l}` — the node's own handle together with its referenced target,
including the empty handle when `l` is empty — rather than exactly
`dom(nodes) = {hnd}`. -/
theorem backlinks_keys_after_single_insert (hnd l : Handle) (d : Nat) :
    ∃ g', commit ⟨0, [], []⟩ { emptyTxn 0 with incNodes := [(hnd, Node.A l d)] }
        = .ok g' ∧
      ∀ k, (mlook g'.backLinks k).isSome = true ↔ (k = hnd ∨ k = l) := by
  by_cases h : l = hnd
  · subst h
    refine ⟨⟨0, [(l, Node.A l d)], [(l, [(l, Src.aLink)])]⟩, ?_, ?_⟩
    · simp [commit, redirectLinksVec, buildFa, collapseFa, applyReps, mergeNodes,
        mergeMaps, addBackLinksAll, addBackLinks, addBackLinksOne, mentry, minsert,
        mlook, sinsert, iterSources, bdDeclsAll, bdAddDecls, getBidirectionalLinks,
        foldMut, foldUpdate, foldRemove, applyBidirectionalLinks, applyBdRemove,
        applyBdAdd, emptyBd, emptyTxn]
    · intro k
      by_cases hk : k = l
      · simp [mlook, hk]
      · simp [mlook, hk, Ne.symm hk]
  · refine ⟨⟨0, [(hnd, Node.A l d)], [(hnd, []), (l, [(hnd, Src.aLink)])]⟩, ?_, ?_⟩
    · simp [commit, redirectLinksVec, buildFa, collapseFa, applyReps, mergeNodes,
        mergeMaps, addBackLinksAll, addBackLinks, addBackLinksOne, mentry, minsert,
        mlook, sinsert, iterSources, bdDeclsAll, bdAddDecls, getBidirectionalLinks,
        foldMut, foldUpdate, foldRemove, applyBidirectionalLinks, applyBdRemove,
        applyBdAdd, emptyBd, emptyTxn, h, Ne.symm h]
    · intro k
      by_cases hk1 : k = hnd
      · simp [mlook, hk1]
      · by_cases hk2 : k = l
        · simp [mlook, hk1, hk2, Ne.symm hk1, Ne.symm h]
        · simp [mlook, hk1, hk2, Ne.symm hk1, Ne.symm hk2]

theorem mem_iterSources_iff (n : Node) (y : Handle) (s : Src) :
    (y, s) ∈ iterSources n ↔ y ∈ linkTargets n s := by
  cases n <;> cases s <;> simp [iterSources, linkTargets]

theorem linkTargets_tag_unique {n : Node} {s s' : Src} {y y' : Handle}
    (h : y ∈ linkTargets n s) (h' : y' ∈ linkTargets n s') : s = s' := by
  cases n <;> cases s <;> cases s' <;> simp_all [linkTargets, iterSources]

theorem modifyLink_zero_spec {n : Node} {s : Src} {h : Handle}
    (hmem : h ∈ linkTargets n s) (hne : h ≠ emptyH) (hok : nodeOk n) :
    h ∉ linkTargets (modifyLink n s h emptyH).1 s ∧
      emptyH ∈ linkTargets (modifyLink n s h emptyH).1 s := by
  cases n with
  | C ls d =>
    cases s <;> simp [linkTargets, iterSources] at hmem
    constructor
    · simp [modifyLink, linkTargets, iterSources, mem_hinsert, hne]
      exact fun hc => not_mem_hremove_self hok h hc
    · simp [modifyLink, linkTargets, iterSources, mem_hinsert]
  | A l d =>
    cases s <;> simp_all [linkTargets, iterSources, modifyLink, emptyH]
  | B l =>
    cases s <;> simp_all [linkTargets, iterSources, modifyLink, emptyH]
  | P pt =>
    cases s <;> simp_all [linkTargets, iterSources, modifyLink, emptyH]
  | Q pt =>
    cases s <;> simp_all [linkTargets, iterSources, modifyLink, emptyH]

theorem mlook_some_mem {V : Type} {m : List (Handle × V)} {k : Handle} {v : V}
    (h : mlook m k = some v) : (k, v) ∈ m := by
  induction m with
  | nil => simp [mlook] at h
  | cons p t ih =>
    obtain ⟨p1, p2⟩ := p
    by_cases hp : p1 = k
    · subst hp
      simp only [mlook, if_pos rfl] at h
      cases h
      exact List.mem_cons_self _ _
    · simp [mlook, hp] at h
      exact List.mem_cons_of_mem _ (ih h)

theorem stripSources_spec (x : Handle) :
    ∀ (srcs : List (Handle × Src)) (m : List (Handle × List (Handle × Src))),
    (∀ q ∈ srcs, (mlook m q.1).isSome = true) →
    (∀ k l, mlook m k = some l → l.Nodup) →
    ∃ m', stripSources x m srcs = .ok m' ∧
      m'.map Prod.fst = m.map Prod.fst ∧
      (∀ k l, mlook m k = some l → ∃ l', mlook m' k = some l' ∧
        l'.Sublist l ∧ (∀ p ∈ l, p.1 ≠ x → p ∈ l')) ∧
      (∀ q ∈ srcs, ∀ l', mlook m' q.1 = some l' → (x, q.2) ∉ l') ∧
      (∀ k l', mlook m' k = some l' → l'.Nodup) := by
  intro srcs
  induction srcs with
  | nil =>
    intro m hsome hnodup
    refine ⟨m, rfl, rfl, ?_, ?_, hnodup⟩
    · intro k l hl
      exact ⟨l, hl, List.Sublist.refl l, fun p hp _ => hp⟩
    · intro q hq
      simp at hq
  | cons q0 t ih =>
    intro m hsome hnodup
    obtain ⟨y, s⟩ := q0
    have hy : (mlook m y).isSome = true := hsome (y, s) (List.mem_cons_self _ _)
    obtain ⟨l0, hl0⟩ : ∃ l0, mlook m y = some l0 := by
      cases hmy : mlook m y
      · rw [hmy] at hy
        simp at hy
      · exact ⟨_, rfl⟩
    have hl0nd : l0.Nodup := hnodup y l0 hl0
    set m1 := minsert m y (sremove l0 (x, s)) with hm1
    have hm1y : mlook m1 y = some (sremove l0 (x, s)) := mlook_minsert_self m y _
    have hm1ne : ∀ k, k ≠ y → mlook m1 k = mlook m k := fun k hk =>
      mlook_minsert_ne m _ hk
    have hm1keys : m1.map Prod.fst = m.map Prod.fst :=
      minsert_keys_of_mem m y _ hy
    have hsome1 : ∀ q ∈ t, (mlook m1 q.1).isSome = true := by
      intro q hq
      by_cases hk : q.1 = y
      · rw [hk, hm1y]
        rfl
      · rw [hm1ne q.1 hk]
        exact hsome q (List.mem_cons_of_mem _ hq)
    have hnodup1 : ∀ k l, mlook m1 k = some l → l.Nodup := by
      intro k l hl
      by_cases hk : k = y
      · subst hk
        rw [hm1y] at hl
        cases hl
        exact List.Nodup.sublist (sremove_sublist l0 (x, s)) hl0nd
      · rw [hm1ne k hk] at hl
        exact hnodup k l hl
    obtain ⟨m', hstrip, hkeys, hrel, hout, hnd'⟩ := ih m1 hsome1 hnodup1
    refine ⟨m', ?_, hkeys.trans hm1keys, ?_, ?_, hnd'⟩
    · simp only [stripSources, hl0]
      exact hstrip
    · intro k l hl
      by_cases hk : k = y
      · subst hk
        rw [hl0] at hl
        cases hl
        obtain ⟨l', hl', hsub, hkeep⟩ := hrel k _ hm1y
        refine ⟨l', hl', hsub.trans (sremove_sublist l0 (x, s)), ?_⟩
        intro p hp hpx
        have hpne : p ≠ (x, s) := fun hc => hpx (by rw [hc])
        exact hkeep p (mem_sremove_of_ne hp hpne) hpx
      · rw [← hm1ne k hk] at hl
        exact hrel k l hl
    · intro q hq l' hl'
      rcases List.mem_cons.mp hq with hq1 | hq2
      · subst hq1
        obtain ⟨l'', hl'', hsub, _⟩ := hrel y _ hm1y
        have hl2 : mlook m' y = some l' := hl'
        rw [hl''] at hl2
        cases hl2
        intro hc
        exact not_mem_sremove_self hl0nd (x, s) (hsub.subset hc)
      · exact hout q hq2 l' hl'

theorem zeroInbound_spec (x : Handle) :
    ∀ (inb : List (Handle × Src)) (m : List (Handle × Node)),
    (∀ q ∈ inb, (mlook m q.1).isSome = true) →
    (inb.map Prod.fst).Nodup →
    ∃ m', zeroInbound x m inb = .ok m' ∧
      (∀ q ∈ inb, ∀ n, mlook m q.1 = some n →
        mlook m' q.1 = some (modifyLink n q.2 x emptyH).1) ∧
      (∀ k, k ∉ inb.map Prod.fst → mlook m' k = mlook m k) := by
  intro inb
  induction inb with
  | nil =>
    intro m _ _
    exact ⟨m, rfl, by simp, fun k _ => rfl⟩
  | cons q0 t ih =>
    intro m hsome hnd
    obtain ⟨y, s⟩ := q0
    rw [List.map_cons] at hnd
    rcases List.nodup_cons.mp hnd with ⟨hy_nin, hnd'⟩
    have hy : (mlook m y).isSome = true := hsome (y, s) (List.mem_cons_self _ _)
    obtain ⟨n0, hn0⟩ : ∃ n0, mlook m y = some n0 := by
      cases hmy : mlook m y
      · rw [hmy] at hy
        simp at hy
      · exact ⟨_, rfl⟩
    set m1 := minsert m y (modifyLink n0 s x emptyH).1 with hm1
    have hm1y : mlook m1 y = some (modifyLink n0 s x emptyH).1 :=
      mlook_minsert_self m y _
    have hm1ne : ∀ k, k ≠ y → mlook m1 k = mlook m k := fun k hk =>
      mlook_minsert_ne m _ hk
    have hsome1 : ∀ q ∈ t, (mlook m1 q.1).isSome = true := by
      intro q hq
      have hmem : q.1 ∈ t.map Prod.fst := List.mem_map_of_mem Prod.fst hq
      have hqy : q.1 ≠ y := fun hc => hy_nin (hc ▸ hmem)
      rw [hm1ne q.1 hqy]
      exact hsome q (List.mem_cons_of_mem _ hq)
    obtain ⟨m', hzero, hmod, hother⟩ := ih m1 hsome1 hnd'
    refine ⟨m', ?_, ?_, ?_⟩
    · simp only [zeroInbound, hn0]
      exact hzero
    · intro q hq n hn
      rcases List.mem_cons.mp hq with hq1 | hq2
      · subst hq1
        have hn' : mlook m y = some n := hn
        rw [hn0] at hn'
        cases hn'
        show mlook m' y = some (modifyLink n0 s x emptyH).1
        rw [hother y hy_nin]
        exact hm1y
      · have hmem : q.1 ∈ t.map Prod.fst := List.mem_map_of_mem Prod.fst hq2
        have hqy : q.1 ≠ y := fun hc => hy_nin (hc ▸ hmem)
        rw [← hm1ne q.1 hqy] at hn
        exact hmod q hq2 n hn
    · intro k hk
      have hk1 : k ≠ y := fun hc => hk (by simp [hc])
      have hk2 : k ∉ t.map Prod.fst := fun hc => hk (by simp [hc])
      rw [hother k hk2]
      exact hm1ne k hk1

theorem mem_tinsert {l : List (Handle × Handle × LM)} {p q : Handle × Handle × LM} :
    q ∈ tinsert l p ↔ q = p ∨ q ∈ l := by
  induction l with
  | nil => simp [tinsert]
  | cons r t ih =>
    by_cases h : p = r
    · subst h
      have hs : tinsert (p :: t) p = p :: t := by simp [tinsert]
      rw [hs]
      simp only [List.mem_cons]
      tauto
    · by_cases h2 : tripLt p r
      · simp only [tinsert]
        rw [if_neg h, if_pos h2]
        simp only [List.mem_cons]
      · simp only [tinsert]
        rw [if_neg h, if_neg h2]
        simp only [List.mem_cons, ih]
        tauto

/-- Invariant of the delta container while only removals for node `x` are
queued. -/
def bdOnlyRemove (x : Handle) (bd : Bd) : Prop :=
  bd.toAdd = [] ∧ ∀ e ∈ bd.toRemove, e.1 = x

theorem bdRemoveOne_onlyRemove {x : Handle} {bd : Bd} (hbd : bdOnlyRemove x bd)
    (y : Handle) (lms : List LM) : bdOnlyRemove x (bdRemoveOne bd x y lms) := by
  induction lms generalizing bd with
  | nil => exact hbd
  | cons l t ih =>
    simp only [bdRemoveOne]
    rcases hbd with ⟨ha, hr⟩
    rw [ha]
    have hnin : (x, y, l) ∉ ([] : List (Handle × Handle × LM)) := by simp
    rw [if_neg hnin]
    exact ih ⟨rfl, by
      intro e he
      rcases mem_tinsert.mp he with he1 | he2
      · rw [he1]
      · exact hr e he2⟩

theorem bdRemove_onlyRemove {x : Handle} {bd : Bd} (hbd : bdOnlyRemove x bd)
    (ys : List Handle) (lms : List LM) :
    bdOnlyRemove x (bdRemove bd x ys lms) := by
  induction ys generalizing bd with
  | nil => exact hbd
  | cons y t ih => exact ih (bdRemoveOne_onlyRemove hbd y lms)

theorem bdRemoveDecls_onlyRemove {x : Handle} {bd : Bd}
    (hbd : bdOnlyRemove x bd) (ds : List (List Handle × List LM)) :
    bdOnlyRemove x (bdRemoveDecls bd x ds) := by
  induction ds generalizing bd with
  | nil => exact hbd
  | cons d t ih => exact ih (bdRemove_onlyRemove hbd d.1 d.2)

theorem applyBdRemove_skip (bs : List (Handle × List (Handle × Src))) :
    ∀ (trs : List (Handle × Handle × LM)) (ns : List (Handle × Node)),
    (∀ e ∈ trs, mlook ns e.1 = none) →
    applyBdRemove ns bs trs = .ok (ns, bs) := by
  intro trs
  induction trs with
  | nil => exact fun ns _ => rfl
  | cons e t ih =>
    intro ns hnone
    obtain ⟨x, y, l⟩ := e
    have hx : mlook ns x = none := hnone (x, y, l) (List.mem_cons_self _ _)
    simp only [applyBdRemove, hx]
    exact ih ns (fun e' he' => hnone e' (List.mem_cons_of_mem _ he'))


theorem redirectLinksVec_nil (g : Graph) (bd : Bd) :
    redirectLinksVec g [] bd = .ok (g, bd) := rfl

theorem mergeNodes_nil (g : Graph) (bd : Bd) : mergeNodes g [] bd = (g, bd) := rfl

theorem foldMut_nil (g : Graph) (bd : Bd) : foldMut g bd [] = .ok (g, bd) := rfl

theorem foldUpdate_nil (g : Graph) (bd : Bd) : foldUpdate g bd [] = .ok (g, bd) := rfl

theorem foldRemove_single (g : Graph) (bd : Bd) (h : Handle) :
    foldRemove g bd [h] = removeNode g h bd := by
  cases hrn : removeNode g h bd with
  | error e => simp [foldRemove, hrn]
  | ok p =>
    cases p
    simp [foldRemove, hrn]

theorem commit_removeTxn_eq (g : Graph) (h : Handle) :
    commit g (removeTxn g.ctxId h) =
      match removeNode g h emptyBd with
      | .error e => .error e
      | .ok (g1, bd1) => applyBidirectionalLinks g1 bd1 := by
  unfold commit
  rw [if_pos (show (removeTxn g.ctxId h).ctxId = g.ctxId from rfl),
    if_pos (show (removeTxn g.ctxId h).allocNodes = [] from rfl)]
  simp only [removeTxn, emptyTxn, redirectLinksVec_nil, mergeNodes_nil,
    foldMut_nil, foldUpdate_nil, foldRemove_single]

/-- Core characterization of `Graph::commit` on a single-removal
transaction of a live handle over a well-formed graph: the commit
succeeds, the handle disappears from `nodes` and from the `back_links`
keys, and every other node holding an inbound edge `(h, s)` of `h` is
rewritten by `modify_link(s, h, empty)`. -/
theorem removeNode_commit_spec (g : Graph) (h : Handle) (hwf : Wf g)
    {n0 : Node} (hlive : mlook g.nodes h = some n0) :
    ∃ g', commit g (removeTxn g.ctxId h) = .ok g' ∧
      mlook g'.nodes h = none ∧
      mlook g'.backLinks h = none ∧
      (∀ q ∈ blset g h, q.1 ≠ h → ∀ n, mlook g.nodes q.1 = some n →
        mlook g'.nodes q.1 = some (modifyLink n q.2 h emptyH).1) := by
  obtain ⟨hndN, hndB, h0, hI2, hdom, hI3⟩ := hwf
  have hmem0 : (h, n0) ∈ g.nodes := mlook_some_mem hlive
  have hsrcsome : ∀ q ∈ iterSources n0, (mlook g.backLinks q.1).isSome = true :=
    (hI2 (h, n0) hmem0).2
  have hblnodup : ∀ k l, mlook g.backLinks k = some l → l.Nodup :=
    fun k l hl => (hI3 (k, l) (mlook_some_mem hl)).1
  obtain ⟨back1, hstrip, hkeys, hrel, hout, hnd1⟩ :=
    stripSources_spec h (iterSources n0) g.backLinks hsrcsome hblnodup
  have hhkey : (mlook g.backLinks h).isSome = true := hdom (h, n0) hmem0
  obtain ⟨bl0, hbl0⟩ : ∃ bl0, mlook g.backLinks h = some bl0 := by
    cases hmy : mlook g.backLinks h
    · rw [hmy] at hhkey
      simp at hhkey
    · exact ⟨_, rfl⟩
  obtain ⟨inb, hinb, hinbsub, hinbkeep⟩ := hrel h bl0 hbl0
  have hI3bl := (hI3 (h, bl0) (mlook_some_mem hbl0)).2
  have hinb_ne : ∀ p ∈ inb, p.1 ≠ h := by
    intro p hp hc
    have hpbl : p ∈ bl0 := hinbsub.subset hp
    have e := hI3bl p hpbl
    rw [hc, hlive] at e
    have e' : h ∈ linkTargets n0 p.2 := e
    have hsrc : (h, p.2) ∈ iterSources n0 := (mem_iterSources_iff n0 h p.2).mpr e'
    have hnot := hout (h, p.2) hsrc inb hinb
    have hpp : p = (h, p.2) := by
      obtain ⟨p1, p2⟩ := p
      simp only at hc
      rw [hc]
    rw [hpp] at hp
    exact hnot hp
  have hbl0nd : bl0.Nodup := hblnodup h bl0 hbl0
  have hbl0fst : (bl0.map Prod.fst).Nodup := by
    apply List.Nodup.map_on ?_ hbl0nd
    intro p1 hp1 p2 hp2 hf
    have e1 := hI3bl p1 hp1
    have e2 := hI3bl p2 hp2
    cases hn : mlook g.nodes p1.1 with
    | none =>
      rw [hn] at e1
      simp [optionHolds] at e1
    | some nn =>
      rw [hn] at e1
      rw [← hf, hn] at e2
      have e1' : h ∈ linkTargets nn p1.2 := e1
      have e2' : h ∈ linkTargets nn p2.2 := e2
      have : p1.2 = p2.2 := linkTargets_tag_unique e1' e2'
      exact Prod.ext hf this
  have hinbfst : (inb.map Prod.fst).Nodup :=
    List.Nodup.sublist (hinbsub.map Prod.fst) hbl0fst
  have hzsome : ∀ q ∈ inb, (mlook (mremove g.nodes h) q.1).isSome = true := by
    intro q hq
    have hqbl : q ∈ bl0 := hinbsub.subset hq
    have e := hI3bl q hqbl
    have hne := hinb_ne q hq
    rw [mlook_mremove_ne g.nodes hne]
    cases hn : mlook g.nodes q.1 with
    | none =>
      rw [hn] at e
      simp [optionHolds] at e
    | some nn => rfl
  obtain ⟨nodes2, hzero, hmod, hoth⟩ :=
    zeroInbound_spec h inb (mremove g.nodes h) hzsome hinbfst
  have hrn : removeNode g h emptyBd = .ok
      ({ g with nodes := nodes2, backLinks := mremove back1 h },
        bdRemoveDecls emptyBd h (getBidirectionalLinks n0)) := by
    simp only [removeNode, hlive, hstrip, hinb, hzero]
  have hbdr : bdOnlyRemove h (bdRemoveDecls emptyBd h (getBidirectionalLinks n0)) :=
    bdRemoveDecls_onlyRemove ⟨rfl, by simp [emptyBd]⟩ _
  have hn2h : mlook nodes2 h = none := by
    have h1 : h ∉ inb.map Prod.fst := by
      intro hc
      obtain ⟨p, hp, hpe⟩ := List.mem_map.mp hc
      exact hinb_ne p hp hpe
    rw [hoth h h1]
    exact mlook_mremove_self g.nodes h hndN
  have happly : applyBidirectionalLinks
      { g with nodes := nodes2, backLinks := mremove back1 h }
      (bdRemoveDecls emptyBd h (getBidirectionalLinks n0)) =
      .ok { g with nodes := nodes2, backLinks := mremove back1 h } := by
    unfold applyBidirectionalLinks
    rw [applyBdRemove_skip (mremove back1 h) _ nodes2
      (fun e he => by rw [hbdr.2 e he]; exact hn2h)]
    rw [hbdr.1]
    rfl
  refine ⟨{ g with nodes := nodes2, backLinks := mremove back1 h }, ?_, hn2h, ?_, ?_⟩
  · rw [commit_removeTxn_eq, hrn]
    exact happly
  · show mlook (mremove back1 h) h = none
    apply mlook_mremove_self
    rw [hkeys]
    exact hndB
  · intro q hq hqh n hn
    have hqbl : q ∈ bl0 := by
      have : blset g h = bl0 := by
        simp [blset, hbl0]
      rw [this] at hq
      exact hq
    have hqinb : q ∈ inb := hinbkeep q hqbl hqh
    show mlook nodes2 q.1 = some (modifyLink n q.2 h emptyH).1
    apply hmod q hqinb
    rw [mlook_mremove_ne g.nodes hqh]
    exact hn

/-- The S1 scenario graph: `1 : A {link = 2}`, `2 : B {link = 1}` with its
back-link index. -/
def gS1 : Graph :=
  ⟨0, [(1, Node.A 2 0), (2, Node.B 1)],
    [(1, [(2, Src.bLink)]), (2, [(1, Src.aLink)])]⟩

/-- Claim C5: committing the removal of a live handle `h` from a graph
satisfying the invariants removes `h` from `nodes`, rewrites the edge of
every other node `x` with an inbound edge `(h, s)` to empty via
`modify_link(s, h, empty)` (afterwards `h` is gone from the edge's targets
and empty is among them), and erases `back_links[h]`; in the two-node
cycle scenario S1, removing handle 1 leaves node 2 with an empty link and
an empty back-link set. -/
theorem remove_node_spec_and_scenario (g : Graph) (h : Handle) (hwf : Wf g)
    {n0 : Node} (hlive : mlook g.nodes h = some n0) :
    (∃ g', commit g (removeTxn g.ctxId h) = .ok g' ∧
      mlook g'.nodes h = none ∧
      mlook g'.backLinks h = none ∧
      (∀ q ∈ blset g h, q.1 ≠ h → ∀ n, mlook g.nodes q.1 = some n →
        mlook g'.nodes q.1 = some (modifyLink n q.2 h emptyH).1 ∧
        h ∉ linkTargets (modifyLink n q.2 h emptyH).1 q.2 ∧
        emptyH ∈ linkTargets (modifyLink n q.2 h emptyH).1 q.2)) ∧
    commit gS1 (removeTxn gS1.ctxId 1) =
      .ok ⟨0, [(2, Node.B emptyH)], [(2, [])]⟩ := by
  constructor
  · obtain ⟨g', hc, hn, hb, hcl⟩ := removeNode_commit_spec g h hwf hlive
    obtain ⟨hndN, hndB, h0, hI2, hdom, hI3⟩ := hwf
    refine ⟨g', hc, hn, hb, ?_⟩
    intro q hq hqh n hnq
    refine ⟨hcl q hq hqh n hnq, ?_⟩
    have hh0 : h ≠ emptyH := by
      intro hc0
      rw [hc0, h0] at hlive
      cases hlive
    have hok : nodeOk n := (hI2 (q.1, n) (mlook_some_mem hnq)).1
    have hmem : h ∈ linkTargets n q.2 := by
      obtain ⟨bl0, hbl0⟩ : ∃ bl0, mlook g.backLinks h = some bl0 := by
        cases hmy : mlook g.backLinks h
        · unfold blset at hq
          rw [hmy] at hq
          simp at hq
        · exact ⟨_, rfl⟩
      have hqbl : q ∈ bl0 := by
        unfold blset at hq
        rw [hbl0] at hq
        exact hq
      have e := (hI3 (h, bl0) (mlook_some_mem hbl0)).2 q hqbl
      rw [hnq] at e
      exact e
    exact modifyLink_zero_spec hmem hh0 hok
  · decide

/-- Witness for `remove_node_spec_and_scenario` at the S1 graph, removing
handle 1. -/
theorem remove_node_spec_and_scenario_witness :
    ((∃ g', commit gS1 (removeTxn gS1.ctxId 1) = .ok g' ∧
      mlook g'.nodes 1 = none ∧
      mlook g'.backLinks 1 = none ∧
      (∀ q ∈ blset gS1 1, q.1 ≠ 1 → ∀ n, mlook gS1.nodes q.1 = some n →
        mlook g'.nodes q.1 = some (modifyLink n q.2 1 emptyH).1 ∧
        (1 : Handle) ∉ linkTargets (modifyLink n q.2 1 emptyH).1 q.2 ∧
        emptyH ∈ linkTargets (modifyLink n q.2 1 emptyH).1 q.2)) ∧
    commit gS1 (removeTxn gS1.ctxId 1) =
      .ok ⟨0, [(2, Node.B emptyH)], [(2, [])]⟩) :=
  remove_node_spec_and_scenario gS1 1 (by decide) rfl

/-- Claim C4, amended: on set-valued fields the generated rewrite removes
`old` and inserts `new` unconditionally, so committing the removal of a
live node `h` referenced from the set field of a node `x` rewrites that
field to `insert empty (remove h links)` — the set ends up containing the
empty handle instead of merely dropping `h`. -/
theorem remove_set_field_inserts_empty (g : Graph) (h x : Handle)
    (hwf : Wf g) {n0 : Node} (hlive : mlook g.nodes h = some n0)
    {ls : List Handle} {d : Nat} (hx : mlook g.nodes x = some (Node.C ls d))
    (hin : (x, Src.cLinks) ∈ blset g h) (hxh : x ≠ h) :
    ∃ g', commit g (removeTxn g.ctxId h) = .ok g' ∧
      mlook g'.nodes x = some (Node.C (hinsert (hremove ls h) emptyH) d) ∧
      emptyH ∈ hinsert (hremove ls h) emptyH := by
  obtain ⟨g', hc, hn, hb, hcl⟩ := removeNode_commit_spec g h hwf hlive
  refine ⟨g', hc, ?_, ?_⟩
  · have hm := hcl (x, Src.cLinks) hin hxh (Node.C ls d) hx
    simpa [modifyLink] using hm
  · simp [mem_hinsert]

/-- The C4 witness graph: `1 : C {links = {2}}`, `2 : B {link = empty}`. -/
def gC4 : Graph :=
  ⟨0, [(1, Node.C [2] 5), (2, Node.B emptyH)],
    [(1, []), (2, [(1, Src.cLinks)]), (emptyH, [(2, Src.bLink)])]⟩

/-- Witness for `remove_set_field_inserts_empty`: removing node 2 leaves
node 1's set field equal to `{empty}`. -/
theorem remove_set_field_inserts_empty_witness :
    ∃ g', commit gC4 (removeTxn gC4.ctxId 2) = .ok g' ∧
      mlook g'.nodes 1 = some (Node.C (hinsert (hremove [2] 2) emptyH) 5) ∧
      emptyH ∈ hinsert (hremove [2] 2) emptyH :=
  remove_set_field_inserts_empty gC4 2 1 (by decide) rfl rfl (by decide)
    (by decide)

/-- The commit engine as an explicit seven-phase pipeline (validation,
early redirections, merge of inserts, mutations, updates, late
redirections, removals, bidirectional delta), written with monadic
sequencing of the standalone phase functions. -/
def commitPhases (g : Graph) (t : Transaction) : Except String Graph :=
  if t.ctxId = g.ctxId then
    if t.allocNodes = [] then
      (redirectLinksVec g t.redirectLinksV emptyBd).bind fun r1 =>
        (foldMut (mergeNodes r1.1 t.incNodes r1.2).1
            (mergeNodes r1.1 t.incNodes r1.2).2 t.mutNodes).bind fun r3 =>
          (foldUpdate r3.1 r3.2 t.updateNodes).bind fun r4 =>
            (redirectLinksVec r4.1 t.redirectAllLinksV r4.2).bind fun r5 =>
              (foldRemove r5.1 r5.2 t.decNodes).bind fun r6 =>
                applyBidirectionalLinks r6.1 r6.2
    else .error allocMsg
  else .error ctxMsg

/-- Two live `A` nodes with empty links (phase-order scenario base). -/
def gR : Graph :=
  ⟨0, [(1, Node.A emptyH 0), (2, Node.A emptyH 0)],
    [(1, []), (emptyH, [(1, Src.aLink), (2, Src.aLink)]), (2, [])]⟩

/-- Insert node 3 pointing at node 1, plus an early redirection `(1, 2)`. -/
def tEarly : Transaction :=
  { emptyTxn 0 with incNodes := [(3, Node.A 1 7)], redirectLinksV := [(1, 2)] }

/-- Insert node 3 pointing at node 1, plus a late redirection `(1, 2)`. -/
def tLate : Transaction :=
  { emptyTxn 0 with
    incNodes := [(3, Node.A 1 7)], redirectAllLinksV := [(1, 2)] }

/-- Mutator used by the scenarios: increment an `A` node's data. -/
def bumpData : Node → Node
  | Node.A l d => Node.A l (d + 1)
  | n => n

/-- Mutator: set an `A` node's data to 5. -/
def setData5 : Node → Node
  | Node.A l _ => Node.A l 5
  | n => n

/-- Updater: double an `A` node's data. -/
def doubleData : Node → Node
  | Node.A l d => Node.A l (d * 2)
  | n => n

/-- Updater: point an `A` node's link at node 2. -/
def setLink2 : Node → Node
  | Node.A _ d => Node.A 2 d
  | n => n

/-- Insert node 1 and mutate it in the same transaction. -/
def tInsMut : Transaction :=
  { emptyTxn 0 with
    incNodes := [(1, Node.A emptyH 5)], mutNodes := [(1, bumpData)] }

/-- One live `A` node with data 3 (mutate/update scenario base). -/
def gM : Graph :=
  ⟨0, [(1, Node.A emptyH 3)], [(1, []), (emptyH, [(1, Src.aLink)])]⟩

/-- Mutate (`data + 1`) and update (`data * 2`) the same node. -/
def tMutUpd : Transaction :=
  { emptyTxn 0 with
    mutNodes := [(1, bumpData)], updateNodes := [(1, doubleData)] }

/-- Two queued mutations on the same node (`data := 5`, then `data + 1`). -/
def tMutMut : Transaction :=
  { emptyTxn 0 with mutNodes := [(1, setData5), (1, bumpData)] }

/-- Nodes 1 (`A`, empty link) and 2 (`B`, empty link) for the
update-then-late-redirect scenario. -/
def gU : Graph :=
  ⟨0, [(1, Node.A emptyH 0), (2, Node.B emptyH)],
    [(1, []), (2, []), (emptyH, [(1, Src.aLink), (2, Src.bLink)])]⟩

/-- Update node 1 to point at 2, plus a late redirection `(2, 1)`. -/
def tUpdRedir : Transaction :=
  { emptyTxn 0 with
    updateNodes := [(1, setLink2)], redirectAllLinksV := [(2, 1)] }

/-- Node 1 (`A`) pointing at node 2 (`B`) for the redirect-then-remove
scenario. -/
def gV : Graph :=
  ⟨0, [(1, Node.A 2 0), (2, Node.B emptyH)],
    [(1, []), (2, [(1, Src.aLink)]), (emptyH, [(2, Src.bLink)])]⟩

/-- Late redirection `(2, 1)` together with removal of node 2. -/
def tRedirRemove : Transaction :=
  { emptyTxn 0 with redirectAllLinksV := [(2, 1)], decNodes := [2] }

/-- Insert the mirrored pair `1 : P {partner = 2}` and
`2 : Q {partner = empty}`. -/
def tBdPair : Transaction :=
  { emptyTxn 0 with incNodes := [(1, Node.P 2), (2, Node.Q emptyH)] }

/-- Claim C9: `commit` is exactly the fixed seven-phase pipeline (first
conjunct, over every graph and transaction), and the phase order is
observable on concrete discriminating inputs: an early redirection does
not see a node inserted by the same transaction while a late one does
(inserts after early redirections, late redirections after inserts);
a mutation queued for a freshly inserted handle succeeds (inserts before
mutations); an update sees the mutation's result (mutations before
updates); two queued mutations apply in queue order; a late redirection
sees an edge created by an update (updates before late redirections);
a removal scheduled with a late redirection of the removed handle commits
successfully with the redirection applied first (late redirections before
removals); and the bidirectional delta of an insert is applied at the end
(node 2's mirrored field is filled in the same commit). -/
theorem commit_phase_order :
    (∀ (g : Graph) (t : Transaction), commit g t = commitPhases g t) ∧
    optionHolds (fun g => mlook g.nodes 3 = some (Node.A 1 7))
      (commit gR tEarly).toOption ∧
    optionHolds (fun g => mlook g.nodes 3 = some (Node.A 2 7))
      (commit gR tLate).toOption ∧
    optionHolds (fun g => mlook g.nodes 1 = some (Node.A emptyH 6))
      (commit ⟨0, [], []⟩ tInsMut).toOption ∧
    optionHolds (fun g => mlook g.nodes 1 = some (Node.A emptyH 8))
      (commit gM tMutUpd).toOption ∧
    optionHolds (fun g => mlook g.nodes 1 = some (Node.A emptyH 6))
      (commit gM tMutMut).toOption ∧
    optionHolds (fun g => mlook g.nodes 1 = some (Node.A 1 0))
      (commit gU tUpdRedir).toOption ∧
    optionHolds (fun g => mlook g.nodes 1 = some (Node.A 1 0) ∧
        mlook g.nodes 2 = none)
      (commit gV tRedirRemove).toOption ∧
    optionHolds (fun g => mlook g.nodes 2 = some (Node.Q 1))
      (commit ⟨0, [], []⟩ tBdPair).toOption := by
  refine ⟨?_, by decide⟩
  intro g t
  unfold commit commitPhases
  by_cases h1 : t.ctxId = g.ctxId
  · rw [if_pos h1, if_pos h1]
    by_cases h2 : t.allocNodes = []
    · rw [if_pos h2, if_pos h2]
      cases hr1 : redirectLinksVec g t.redirectLinksV emptyBd with
      | error e => rfl
      | ok r1 =>
        obtain ⟨g1, bd1⟩ := r1
        simp only [Except.bind]
        rcases hm : mergeNodes g1 t.incNodes bd1 with ⟨g2, bd2⟩
        cases hr3 : foldMut g2 bd2 t.mutNodes with
        | error e => rfl
        | ok r3 =>
          obtain ⟨g3, bd3⟩ := r3
          simp only [Except.bind]
          cases hr4 : foldUpdate g3 bd3 t.updateNodes with
          | error e => rfl
          | ok r4 =>
            obtain ⟨g4, bd4⟩ := r4
            simp only [Except.bind]
            cases hr5 : redirectLinksVec g4 t.redirectAllLinksV bd4 with
            | error e => rfl
            | ok r5 =>
              obtain ⟨g5, bd5⟩ := r5
              simp only [Except.bind]
              cases hr6 : foldRemove g5 bd5 t.decNodes with
              | error e => rfl
              | ok r6 =>
                obtain ⟨g6, bd6⟩ := r6
                simp only [Except.bind]
    · rw [if_neg h2, if_neg h2]
  · rw [if_neg h1, if_neg h1]
